import Mathlib

/-!
# Verification of `apply_patch.py`

A shallow embedding of the patch-application utility `apply_patch.py` in Lean 4.
Documents and text fragments are modelled as `List Char` (Python `str`);
Python string operations (`find`, slicing, `split('\n')`, `'\n'.join`,
`strip`/`lstrip`/`rstrip`, `replace`) are embedded as executable functions with
Python's semantics.  The similarity ratio computed by the standard-library
collaborator `difflib.SequenceMatcher(None, a, b).ratio()` is embedded exactly
(Ratcliff–Obershelp matching, including the `autojunk` purge), with the float
result represented as the exact rational `2*M/(|a|+|b|)`; for the string sizes
at play the float comparisons of the source agree with the rational ones.
-/

namespace ApplyPatch

/-- A document or text fragment: Python `str` as a list of characters. -/
abbrev Doc := List Char

/-- Convert a Lean string literal to a document. -/
def str (s : String) : Doc := s.data

/-- Python `str.isspace` for the ASCII whitespace characters relevant here
(space, tab, newline, carriage return, vertical tab, form feed). -/
def pyIsSpace (c : Char) : Bool :=
  c = ' ' || c = '\t' || c = '\n' || c = '\x0d' || c = Char.ofNat 11 || c = Char.ofNat 12

/-- Python `str.lstrip()` (no argument: strips whitespace). -/
def pyLstrip (s : Doc) : Doc := s.dropWhile pyIsSpace

/-- Python `str.rstrip()` (no argument: strips whitespace). -/
def pyRstrip (s : Doc) : Doc := (s.reverse.dropWhile pyIsSpace).reverse

/-- Python `str.strip()` (no argument: strips whitespace from both ends). -/
def pyStrip (s : Doc) : Doc := pyRstrip (pyLstrip s)

/-- Python `content.split('\n')`: split on every newline; always returns at
least one (possibly empty) piece. -/
def splitLines : Doc → List Doc
  | [] => [[]]
  | c :: rest =>
    if c = '\n' then [] :: splitLines rest
    else
      match splitLines rest with
      | [] => [[c]]
      | p :: ps => (c :: p) :: ps

/-- Python `sep.join(pieces)`. -/
def interAll (sep : Doc) : List Doc → Doc
  | [] => []
  | [x] => x
  | x :: xs => x ++ sep ++ interAll sep xs

/-- Python `'\n'.join(lines)`. -/
def joinLines (ls : List Doc) : Doc := interAll ['\n'] ls

/-- Python `haystack.find(needle)`: index of the leftmost occurrence of
`needle` in `haystack`, or `none` (Python returns `-1`). -/
def firstOccIdx (needle : Doc) : Doc → Option Nat
  | [] => if needle = [] then some 0 else none
  | c :: rest =>
    if needle.isPrefixOf (c :: rest) then some 0
    else (firstOccIdx needle rest).map (· + 1)

/-- Python slicing `s[a:b]` (indices clamped to the string, `a ≤ b` expected). -/
def pySlice (s : Doc) (a b : Nat) : Doc := (s.take b).drop a

/-- Python `s.replace(old, new)` for non-empty `old`: replace every
occurrence, scanning left to right, non-overlapping, resuming after each
spliced-in replacement.  (Every `old` passed by the program is a non-empty
regex match; the empty-pattern corner of Python's `replace` is not exercised
and this embedding leaves `s` unchanged there.) -/
def replaceAllF (old new : Doc) : Nat → Doc → Doc
  | 0, s => s
  | _ + 1, [] => []
  | fuel + 1, c :: rest =>
    if old ≠ [] ∧ old.isPrefixOf (c :: rest) then
      new ++ replaceAllF old new fuel ((c :: rest).drop old.length)
    else
      c :: replaceAllF old new fuel rest

/-- Python `s.replace(old, new)` for non-empty `old`: replace every
occurrence, scanning left to right, non-overlapping, resuming after each
spliced-in replacement.  (Every `old` passed by the program is a non-empty
regex match; the empty-pattern corner of Python's `replace` is not exercised
and this embedding leaves `s` unchanged there.)  The fuel of `replaceAllF`
decreases by at least one character of `s` per step, so `s.length`
suffices. -/
def replaceAll (old new s : Doc) : Doc := replaceAllF old new s.length s

def splitOnSubF (old : Doc) : Nat → Doc → List Doc
  | 0, s => [s]
  | _ + 1, [] => [[]]
  | fuel + 1, c :: rest =>
    if old ≠ [] ∧ old.isPrefixOf (c :: rest) then
      [] :: splitOnSubF old fuel ((c :: rest).drop old.length)
    else
      match splitOnSubF old fuel rest with
      | [] => [[c]]
      | p :: ps => (c :: p) :: ps

/-- Split `s` at every (leftmost, non-overlapping) occurrence of `old`:
the pieces between occurrences, in order.  `replaceAll old new s` is exactly
these pieces interleaved with `new`. -/
def splitOnSub (old s : Doc) : List Doc := splitOnSubF old s.length s

/-- `true` iff `pat` occurs as a contiguous substring of `s`. -/
def containsSub (pat s : Doc) : Bool := (firstOccIdx pat s).isSome

/-! ## `difflib.SequenceMatcher(None, a, b).ratio()`

The source's Section Locator delegates its fuzzy tier to the Python standard
library.  The embedding below follows `difflib` (Ratcliff–Obershelp): build
`b2j` (indices of each element of `b`, with the `autojunk` purge of popular
elements when `len(b) >= 200`), find the longest matching block of each
interval pair by dynamic programming plus the four extension loops, recurse
on both sides, and report `2*M/(len(a)+len(b))` — here as an exact rational.
`isjunk` is `None`, so the junk set `bjunk` is empty. -/

/-- Ascending list of the indices at which `c` occurs in `b` (`b2j` entry
before the autojunk purge). -/
def bIndices (b : List Char) (c : Char) : List Nat :=
  (List.range b.length).filter (fun j => b.get? j == some c)

/-- `difflib` autojunk: with `len(b) >= 200`, elements occurring more than
`len(b) // 100 + 1` times are purged from `b2j`. -/
def popularChar (b : List Char) (c : Char) : Bool :=
  decide (200 ≤ b.length) && decide (b.length / 100 + 1 < (bIndices b c).length)

/-- `b2j.get(c, [])` after the autojunk purge. -/
def b2jGet (b : List Char) (c : Char) : List Nat :=
  if popularChar b c then [] else bIndices b c

/-- `isjunk` is `None` in the source, so `bjunk` is the empty set. -/
def bJunk (_b : List Char) (_c : Char) : Bool := false

/-- Lookup in the `j2len` association list, defaulting to `0`
(`j2len.get(j-1, 0)`). -/
def alGet (m : List (Nat × Nat)) (k : Nat) : Nat :=
  match m.find? (fun p => p.1 == k) with
  | some p => p.2
  | none => 0

/-- Inner loop of `find_longest_match` for one row `i`: walk the ascending
index list `b2j[a[i]]` (`continue` below `blo`, `break` at `bhi`), building
`newj2len` and updating the best block.  `best` is `(besti, bestj, bestsize)`. -/
def flmRow (j2len : List (Nat × Nat)) (blo bhi i : Nat) :
    List Nat → List (Nat × Nat) → Nat × Nat × Nat → List (Nat × Nat) × (Nat × Nat × Nat)
  | [], newj2len, best => (newj2len, best)
  | j :: js, newj2len, best =>
    if j < blo then flmRow j2len blo bhi i js newj2len best
    else if bhi ≤ j then (newj2len, best)
    else
      let k := (if j = 0 then 0 else alGet j2len (j - 1)) + 1
      let best' := if best.2.2 < k then (i + 1 - k, j + 1 - k, k) else best
      flmRow j2len blo bhi i js ((j, k) :: newj2len) best'

/-- Outer loop of `find_longest_match`: rows `i` over the given index list,
threading `j2len` and the best block. -/
def flmDP (a b : List Char) (blo bhi : Nat) :
    List Nat → List (Nat × Nat) → Nat × Nat × Nat → Nat × Nat × Nat
  | [], _, best => best
  | i :: is, j2len, best =>
    let js := match a.get? i with
              | some c => b2jGet b c
              | none => []
    let (newj2len, best') := flmRow j2len blo bhi i js [] best
    flmDP a b blo bhi is newj2len best'

/-- First extension loop: grow the block downwards past equal non-junk
elements (structural recursion on `besti`, which the loop decrements). -/
def extLowerNonJunk (a b : List Char) (alo blo : Nat) :
    Nat → Nat → Nat → Nat × Nat × Nat
  | 0, bestj, bestsize => (0, bestj, bestsize)
  | besti + 1, bestj, bestsize =>
    if alo < besti + 1 ∧ blo < bestj ∧
        bJunk b ((b.get? (bestj - 1)).getD ' ') = false ∧
        (a.get? besti).isSome ∧ a.get? besti = b.get? (bestj - 1) then
      extLowerNonJunk a b alo blo besti (bestj - 1) (bestsize + 1)
    else (besti + 1, bestj, bestsize)

/-- Second extension loop: grow the block upwards past equal non-junk
elements.  The loop runs while `besti + bestsize < ahi`, so `ahi` steps of
fuel always suffice. -/
def extUpperNonJunkF (a b : List Char) (ahi bhi besti bestj : Nat) : Nat → Nat → Nat
  | 0, bestsize => bestsize
  | fuel + 1, bestsize =>
    if besti + bestsize < ahi ∧ bestj + bestsize < bhi ∧
        bJunk b ((b.get? (bestj + bestsize)).getD ' ') = false ∧
        (a.get? (besti + bestsize)).isSome ∧
        a.get? (besti + bestsize) = b.get? (bestj + bestsize) then
      extUpperNonJunkF a b ahi bhi besti bestj fuel (bestsize + 1)
    else bestsize

def extUpperNonJunk (a b : List Char) (ahi bhi besti bestj : Nat) (bestsize : Nat) : Nat :=
  extUpperNonJunkF a b ahi bhi besti bestj ahi bestsize

/-- Third extension loop: grow downwards past equal junk elements (inert
here since the junk set is empty, kept for fidelity to `difflib`). -/
def extLowerJunk (a b : List Char) (alo blo : Nat) :
    Nat → Nat → Nat → Nat × Nat × Nat
  | 0, bestj, bestsize => (0, bestj, bestsize)
  | besti + 1, bestj, bestsize =>
    if alo < besti + 1 ∧ blo < bestj ∧
        bJunk b ((b.get? (bestj - 1)).getD ' ') = true ∧
        (a.get? besti).isSome ∧ a.get? besti = b.get? (bestj - 1) then
      extLowerJunk a b alo blo besti (bestj - 1) (bestsize + 1)
    else (besti + 1, bestj, bestsize)

/-- Fourth extension loop: grow upwards past equal junk elements (inert
here since the junk set is empty, kept for fidelity to `difflib`). -/
def extUpperJunkF (a b : List Char) (ahi bhi besti bestj : Nat) : Nat → Nat → Nat
  | 0, bestsize => bestsize
  | fuel + 1, bestsize =>
    if besti + bestsize < ahi ∧ bestj + bestsize < bhi ∧
        bJunk b ((b.get? (bestj + bestsize)).getD ' ') = true ∧
        (a.get? (besti + bestsize)).isSome ∧
        a.get? (besti + bestsize) = b.get? (bestj + bestsize) then
      extUpperJunkF a b ahi bhi besti bestj fuel (bestsize + 1)
    else bestsize

def extUpperJunk (a b : List Char) (ahi bhi besti bestj : Nat) (bestsize : Nat) : Nat :=
  extUpperJunkF a b ahi bhi besti bestj ahi bestsize

/-- `SequenceMatcher.find_longest_match(alo, ahi, blo, bhi)`. -/
def findLongestMatch (a b : List Char) (alo ahi blo bhi : Nat) : Nat × Nat × Nat :=
  let d := flmDP a b blo bhi (List.range' alo (ahi - alo)) [] (alo, blo, 0)
  let l := extLowerNonJunk a b alo blo d.1 d.2.1 d.2.2
  let k2 := extUpperNonJunk a b ahi bhi l.1 l.2.1 l.2.2
  let l3 := extLowerJunk a b alo blo l.1 l.2.1 k2
  let k4 := extUpperJunk a b ahi bhi l3.1 l3.2.1 l3.2.2
  (l3.1, l3.2.1, k4)

/-- Total size of all matching blocks (the `M` of `ratio`), computed by the
`get_matching_blocks` recursion: longest match, then recurse on both sides.
The fuel bounds the recursion depth; `|a| + |b| + 1` always suffices because
every recursive call strictly shrinks the combined interval. -/
def matchTotalFuel (a b : List Char) : Nat → Nat → Nat → Nat → Nat → Nat
  | 0, _, _, _, _ => 0
  | fuel + 1, alo, ahi, blo, bhi =>
    let m := findLongestMatch a b alo ahi blo bhi
    if m.2.2 = 0 then 0
    else matchTotalFuel a b fuel alo m.1 blo m.2.1 + m.2.2 +
         matchTotalFuel a b fuel (m.1 + m.2.2) ahi (m.2.1 + m.2.2) bhi

/-- Total matched size over the full sequences. -/
def matchTotal (a b : List Char) : Nat :=
  matchTotalFuel a b (a.length + b.length + 1) 0 a.length 0 b.length

/-- `SequenceMatcher(None, a, b).ratio()`: `2*M / (len(a)+len(b))`, and `1.0`
when both sequences are empty, as an exact rational. -/
def seqRatio (a b : List Char) : ℚ :=
  if a.length + b.length = 0 then 1
  else mkRat (2 * matchTotal a b) (a.length + b.length)

/-! ## The Section Locator: `normalize_whitespace` and `find_section_smart` -/

/-- `normalize_whitespace(text)` (source lines 76–84): expand tabs to four
spaces, unify line endings, then strip each line. -/
def normalize_whitespace (text : Doc) : Doc :=
  let t1 := text.flatMap (fun c => if c = '\t' then str "    " else [c])
  let t2 := (replaceAll (str "\x0d\n") (str "\n") t1).map
    (fun c => if c = '\x0d' then '\n' else c)
  joinLines ((splitLines t2).map pyStrip)

/-- Character offset of line `i` in a document with lines `ls`
(`sum(len(lines[j]) + 1 for j in range(i))`). -/
def lineOffset (ls : List Doc) (i : Nat) : Nat :=
  ((ls.take i).map (fun l => l.length + 1)).sum

/-- The candidate window starting at line `i` spanning `k` lines
(`'\n'.join(lines[i:i+k])`). -/
def windowText (ls : List Doc) (i k : Nat) : Doc := joinLines ((ls.drop i).take k)

/-- Tier 1 (exact): `content.find(section)` and the span
`(start, start + len(section))`. -/
def tier1 (content sec : Doc) : Option (Nat × Nat) :=
  (firstOccIdx sec content).map (fun s => (s, s + sec.length))

/-- First index `i` in `start, start+1, …` (for `n` candidates) satisfying
`p`; mirrors a `for i in range(...)` loop that returns on its first hit. -/
def firstMatchIdx (p : Nat → Bool) : Nat → Nat → Option Nat
  | 0, _ => none
  | n + 1, start => if p start then some start else firstMatchIdx p n (start + 1)

/-- Tier 2 (whitespace-normalized, source lines 103–110): first window whose
normalized text equals the normalized section; the span is the window's
character offset plus the raw window length.  Meaningful under the guard
`len(section_lines) ≤ len(lines)` checked by `find_section_smart`. -/
def tier2 (content sec : Doc) : Option (Nat × Nat) :=
  let lines := splitLines content
  let k := (splitLines sec).length
  let normSec := normalize_whitespace sec
  match firstMatchIdx
      (fun i => normalize_whitespace (windowText lines i k) == normSec)
      (lines.length - k + 1) 0 with
  | some i => some (lineOffset lines i, lineOffset lines i + (windowText lines i k).length)
  | none => none

/-- The ratio the fuzzy tier computes for window `i`:
`SequenceMatcher(None, normalize_whitespace(window), normalized_section).ratio()`. -/
def tier3Ratio (content sec : Doc) (i : Nat) : ℚ :=
  seqRatio (normalize_whitespace (windowText (splitLines content) i (splitLines sec).length))
    (normalize_whitespace sec)

/-- The fuzzy scan (source lines 113–123): fold over window indices carrying
`(best_ratio, best_match)`, updating when `ratio > best_ratio and ratio > 0.8`. -/
def fuzzyLoop (ratio : Nat → ℚ) : Nat → Nat → ℚ → Option Nat → ℚ × Option Nat
  | 0, _, b, m => (b, m)
  | n + 1, i, b, m =>
    let r := ratio i
    if r > b ∧ r > mkRat 4 5 then fuzzyLoop ratio n (i + 1) r (some i)
    else fuzzyLoop ratio n (i + 1) b m

/-- Tier 3 (fuzzy, source lines 112–130): best window by ratio above the 0.8
threshold; the span runs from the offset of line `i` to the offset of line
`i + k` — the offset *of the line after* the window, which includes the
separator after the window's last line. -/
def tier3 (content sec : Doc) : Option (Nat × Nat) :=
  let lines := splitLines content
  let k := (splitLines sec).length
  match (fuzzyLoop (tier3Ratio content sec) (lines.length - k + 1) 0 0 none).2 with
  | some i => some (lineOffset lines i, lineOffset lines (i + k))
  | none => none

/-- `find_section_smart(content, section, ignore_whitespace)` (source lines
86–130), with `(None, None)` embedded as `none`. -/
def find_section_smart (content sec : Doc) (ignore_whitespace : Bool) :
    Option (Nat × Nat) :=
  if ¬ignore_whitespace then tier1 content sec
  else if (splitLines content).length < (splitLines sec).length then none
  else
    match tier2 content sec with
    | some se => some se
    | none => tier3 content sec

/-- Python `list.insert(k, x)` (clamps to the end when `k > length`). -/
def listInsertAt {α : Type} (k : Nat) (x : α) : List α → List α
  | [] => [x]
  | y :: ys =>
    match k with
    | 0 => x :: y :: ys
    | k + 1 => y :: listInsertAt k x ys

/-! ## The Patch Applicator -/

/-- `apply_patch_replace(target_content, patch_content)` (source lines
64–66): the patch content replaces the entire file. -/
def apply_patch_replace (_target_content patch_content : Doc) : Doc :=
  patch_content

/-- `main`'s changed flag for replace mode (source line 352):
`new_content != target_content`. -/
def replace_mode_changed (target_content patch_content : Doc) : Bool :=
  apply_patch_replace target_content patch_content ≠ target_content

/-- `apply_patch_append(target_content, patch_content)` (source lines
68–70): `target_content.rstrip() + "\n\n" + patch_content`. -/
def apply_patch_append (target_content patch_content : Doc) : Doc :=
  pyRstrip target_content ++ str "\n\n" ++ patch_content

/-- `apply_patch_prepend(target_content, patch_content)` (source lines
72–74): `patch_content + "\n\n" + target_content.lstrip()`. -/
def apply_patch_prepend (target_content patch_content : Doc) : Doc :=
  patch_content ++ str "\n\n" ++ pyLstrip target_content

/-- One parsed smart-mode directive.  `apply_patch_smart` (source lines
132–217) extracts these from the patch text with four `re.finditer` scans
(`REPLACE_SECTION`/`WITH`/`END_REPLACE`, `ADD_AFTER`/`NEW_CONTENT`/`END_ADD`,
`ADD_BEFORE`/`NEW_CONTENT`/`END_ADD`, `INSERT_AT_LINE n`/`END_INSERT`), each
group already `strip()`ed; the four per-kind lists are processed one after
the other in that fixed order. -/
inductive SmartDirective : Type
  | replaceSection (originalBlock replacementBlock : Doc)
  | addAfter (targetLine newContent : Doc)
  | addBefore (targetLine newContent : Doc)
  | insertAtLine (lineNumber : Nat) (newContent : Doc)

/-- One iteration of the smart-mode loops, threading `(result, changes_made)`
exactly as the source does: a found span is spliced, a miss only warns. -/
def applySmartOne (ignore_whitespace : Bool) (acc : Doc × Bool) :
    SmartDirective → Doc × Bool
  | .replaceSection orig repl =>
    match find_section_smart acc.1 orig ignore_whitespace with
    | some (s, e) => (acc.1.take s ++ repl ++ acc.1.drop e, true)
    | none => acc
  | .addAfter tgt new =>
    match find_section_smart acc.1 tgt ignore_whitespace with
    | some (_, e) => (acc.1.take e ++ '\n' :: new ++ acc.1.drop e, true)
    | none => acc
  | .addBefore tgt new =>
    match find_section_smart acc.1 tgt ignore_whitespace with
    | some (s, _) => (acc.1.take s ++ new ++ '\n' :: acc.1.drop s, true)
    | none => acc
  | .insertAtLine ln content =>
    let lines := splitLines acc.1
    if 1 ≤ ln ∧ ln ≤ lines.length + 1 then
      (joinLines (listInsertAt (ln - 1) content lines), true)
    else acc

/-- The smart-mode applicator on the parsed directives (the concatenation of
the four per-kind lists in source order), starting from
`(target_content, False)`. -/
def apply_patch_smart (target_content : Doc) (directives : List SmartDirective)
    (ignore_whitespace : Bool) : Doc × Bool :=
  directives.foldl (applySmartOne ignore_whitespace) (target_content, false)

/-! ## Functions mode

The pattern `function\s+([a-zA-Z_$][a-zA-Z0-9_$]*)\s*\([^)]*\)\s*{(.*?)}`
(with `re.DOTALL`) is deterministic: each quantifier's greedy or lazy choice
is forced by a disjoint follow set, so matching at a position means
`"function"`, one or more whitespace, a maximal identifier, optional
whitespace, `(`, everything up to the first `)`, optional whitespace, `{`,
and everything up to the first `}` (which truncates at nested braces — the
documented limitation of the heuristic). -/

/-- `\s` of Python `re` for the ASCII range (same set as `str.isspace`
here). -/
def reSpace (c : Char) : Bool := pyIsSpace c

/-- First character of the identifier class `[a-zA-Z_$]`. -/
def identStart (c : Char) : Bool :=
  ('a' ≤ c && c ≤ 'z') || ('A' ≤ c && c ≤ 'Z') || c = '_' || c = '$'

/-- Continuation character class `[a-zA-Z0-9_$]`. -/
def identCont (c : Char) : Bool := identStart c || ('0' ≤ c && c ≤ '9')

/-- Split `s` as `(chars satisfying p, rest)` (greedy run). -/
def takeDropWhile (p : Char → Bool) (s : Doc) : Doc × Doc :=
  (s.takeWhile p, s.dropWhile p)

/-- Scan up to and including the first occurrence of `stop`: returns
`(before, after)` with the scanned text = `before ++ [stop]`, or `none` if
`stop` never occurs. -/
def scanUpTo (stop : Char) : Doc → Option (Doc × Doc)
  | [] => none
  | c :: rest =>
    if c = stop then some ([], rest)
    else (scanUpTo stop rest).map (fun p => (c :: p.1, p.2))

/-- Try the function pattern at the head of `s` with the identifier either
fixed (`some name`, the `re.escape(func_name)` search pattern of
`apply_function_updates`) or free (`none`, the capturing pattern of
`parse_function_blocks`).  Returns `(name, matched text, rest)`. -/
def tryFunctionAt (fixedName : Option Doc) (s : Doc) : Option (Doc × Doc × Doc) := do
  let kw := str "function"
  guard (kw.isPrefixOf s)
  let s1 := s.drop kw.length
  let (ws1, s2) := takeDropWhile reSpace s1
  guard (ws1 ≠ [])
  let (name, s3) ←
    match fixedName with
    | some nm => if nm.isPrefixOf s2 then some (nm, s2.drop nm.length) else none
    | none =>
      match s2 with
      | [] => none
      | c :: rest =>
        if identStart c then some (c :: rest.takeWhile identCont, rest.dropWhile identCont)
        else none
  -- with a fixed name the next char must not extend the identifier
  -- (`\s*\(` must follow; an identifier character fails both branches anyway)
  let (ws2, s4) := takeDropWhile reSpace s3
  guard (s4.take 1 = ['('])
  let (args, s5) ← scanUpTo ')' (s4.drop 1)
  let (ws3, s6) := takeDropWhile reSpace s5
  guard (s6.take 1 = ['{'])
  let (body, s7) ← scanUpTo '}' (s6.drop 1)
  let matched := kw ++ ws1 ++ name ++ ws2 ++ ['('] ++ args ++ [')'] ++ ws3 ++ ['{'] ++ body ++ ['}']
  pure (name, matched, s7)

/-- `re.finditer(function_pattern, text)`: leftmost, non-overlapping matches,
resuming after each match.  The fuel decreases once per character examined
or skipped, so `text.length + 1` suffices. -/
def scanFunctionsFuel : Nat → Doc → List (Doc × Doc)
  | 0, _ => []
  | _ + 1, [] => []
  | fuel + 1, c :: rest =>
    match tryFunctionAt none (c :: rest) with
    | some (name, matched, after) => (name, matched) :: scanFunctionsFuel fuel after
    | none => scanFunctionsFuel fuel rest

/-- Python `dict` insertion used by `parse_function_blocks`: an existing key
keeps its position and takes the new value, a new key goes to the back. -/
def dictInsert (m : List (Doc × Doc)) (k v : Doc) : List (Doc × Doc) :=
  if m.any (fun p => p.1 == k) then
    m.map (fun p => if p.1 == k then (k, v) else p)
  else m ++ [(k, v)]

/-- `parse_function_blocks(patch_content)` (source lines 219–229): the
name ↦ full-match dictionary, in insertion order. -/
def parse_function_blocks (patch_content : Doc) : List (Doc × Doc) :=
  (scanFunctionsFuel (patch_content.length + 1) patch_content).foldl
    (fun m nb => dictInsert m nb.1 nb.2) []

/-- `re.search` of the fixed-name function pattern (source line 238–239):
the leftmost position where the pattern matches, returning the matched
text. -/
def findFunctionDef (name : Doc) : Doc → Option Doc
  | [] => none
  | c :: rest =>
    match tryFunctionAt (some name) (c :: rest) with
    | some (_, matched, _) => some matched
    | none => findFunctionDef name rest

/-- `apply_function_updates(target_content, patch_functions)` (source lines
231–253).  Note the search of each iteration runs against `target_content`
— the original document — while the replacement (`result.replace`, global)
and the fallback append act on the running `result`. -/
def apply_function_updates (target_content : Doc) (patch_functions : List (Doc × Doc)) :
    Doc × Bool :=
  patch_functions.foldl
    (fun acc nb =>
      match findFunctionDef nb.1 target_content with
      | some old_func => (replaceAll old_func nb.2 acc.1, true)
      | none => (acc.1 ++ str "\n\n" ++ nb.2, true))
    (target_content, false)

/-- The variant the specification describes: identical to
`apply_function_updates` except that each iteration's search runs against
the current, partially rewritten document (`acc.1`) instead of the original
`target_content`.  Used only to compare the source's behaviour with the
spec's words. -/
def apply_function_updates_specSearch (target_content : Doc)
    (patch_functions : List (Doc × Doc)) : Doc × Bool :=
  patch_functions.foldl
    (fun acc nb =>
      match findFunctionDef nb.1 acc.1 with
      | some old_func => (replaceAll old_func nb.2 acc.1, true)
      | none => (acc.1 ++ str "\n\n" ++ nb.2, true))
    (target_content, false)

/-! ## The Transaction Wrapper (`main`, source lines 297–391)

A pure model of the file-level control flow after both files were read:
backup creation (line 343–345), the mode dispatch (lines 347–363), the
no-changes early exit (lines 365–368, `sys.exit(0)` — the backup is not
removed), and the write (line 371).  `write_file` (lines 54–62) calls
`sys.exit(1)` itself on failure; `SystemExit` derives from `BaseException`,
not `Exception`, so the `except Exception` handler of `main` — the only
place the safe-mode restore lives — never runs for a write failure, and no
code path ever deletes a backup file.  A failed write may leave arbitrary
content at the target (mode `'w'` truncates before writing); the model takes
that content as the parameter `failedContent`. -/

/-- Observable outcome of one invocation: the process exit code, the final
content of the target file, and the content of the backup file if one exists
on disk. -/
structure RunOutcome where
  exitCode : Nat
  target : Doc
  backupFile : Option Doc
deriving DecidableEq, Repr

/-- The transaction wrapper around an already-computed apply result
`(new_content, changes_made)`. -/
def runTransaction (backup safeMode : Bool) (target_content : Doc)
    (applyRes : Doc × Bool) (writeOk : Bool) (failedContent : Doc) : RunOutcome :=
  let backupFile := if backup || safeMode then some target_content else none
  if ¬applyRes.2 then
    { exitCode := 0, target := target_content, backupFile := backupFile }
  else if writeOk then
    { exitCode := 0, target := applyRes.1, backupFile := backupFile }
  else
    { exitCode := 1, target := failedContent, backupFile := backupFile }

/-! ## Helper lemmas -/

theorem interAll_cons (sep x : Doc) (xs : List Doc) (h : xs ≠ []) :
    interAll sep (x :: xs) = x ++ sep ++ interAll sep xs := by
  cases xs with
  | nil => exact absurd rfl h
  | cons y ys => rfl

theorem splitLines_ne_nil (s : Doc) : splitLines s ≠ [] := by
  induction s with
  | nil => simp [splitLines]
  | cons c rest ih =>
    by_cases hc : c = '\n'
    · simp [splitLines, hc]
    · simp only [splitLines, if_neg hc]
      cases hsp : splitLines rest <;> simp

theorem splitLines_cons_exists (c : Char) (rest : Doc) (hc : c ≠ '\n') :
    ∃ p ps, splitLines rest = p :: ps ∧ splitLines (c :: rest) = (c :: p) :: ps := by
  cases hsp : splitLines rest with
  | nil => exact absurd hsp (splitLines_ne_nil rest)
  | cons p ps => exact ⟨p, ps, rfl, by simp [splitLines, if_neg hc, hsp]⟩

theorem joinLines_cons_cons (c : Char) (p : Doc) (ps : List Doc) :
    joinLines ((c :: p) :: ps) = c :: joinLines (p :: ps) := by
  cases ps with
  | nil => rfl
  | cons q qs => simp [joinLines, interAll]

theorem joinLines_splitLines (s : Doc) : joinLines (splitLines s) = s := by
  induction s with
  | nil => rfl
  | cons c rest ih =>
    by_cases hc : c = '\n'
    · subst hc
      have hsplit : splitLines ('\n' :: rest) = [] :: splitLines rest := by
        simp [splitLines]
      rw [hsplit, joinLines, interAll_cons _ _ _ (splitLines_ne_nil rest)]
      simp only [List.nil_append, List.singleton_append]
      show '\n' :: joinLines (splitLines rest) = '\n' :: rest
      rw [ih]
    · obtain ⟨p, ps, hsp, hS⟩ := splitLines_cons_exists c rest hc
      rw [hS, joinLines_cons_cons, ← hsp, ih]

theorem splitLines_no_newline (s : Doc) : ∀ l ∈ splitLines s, '\n' ∉ l := by
  induction s with
  | nil => intro l hl; simp [splitLines] at hl; simp [hl]
  | cons c rest ih =>
    intro l hl
    by_cases hc : c = '\n'
    · subst hc
      have hsplit : splitLines ('\n' :: rest) = [] :: splitLines rest := by
        simp [splitLines]
      rw [hsplit, List.mem_cons] at hl
      rcases hl with h | h
      · simp [h]
      · exact ih l h
    · obtain ⟨p, ps, hsp, hS⟩ := splitLines_cons_exists c rest hc
      rw [hS, List.mem_cons] at hl
      rcases hl with h | h
      · subst h
        intro hmem
        rcases List.mem_cons.mp hmem with h' | h'
        · exact hc h'.symm
        · exact ih p (by rw [hsp]; exact List.mem_cons_self p ps) h'
      · exact ih l (by rw [hsp]; exact List.mem_cons_of_mem p h)

theorem splitLines_eq_single (l : Doc) (h : '\n' ∉ l) : splitLines l = [l] := by
  induction l with
  | nil => rfl
  | cons c rest ih =>
    have hc : c ≠ '\n' := fun e => h (by rw [e]; exact List.mem_cons_self _ _)
    have h' : '\n' ∉ rest := fun m => h (List.mem_cons_of_mem c m)
    obtain ⟨p, ps, hsp, hS⟩ := splitLines_cons_exists c rest hc
    rw [ih h'] at hsp
    cases hsp
    exact hS

theorem splitLines_append_newline (x z : Doc) (h : '\n' ∉ x) :
    splitLines (x ++ '\n' :: z) = x :: splitLines z := by
  induction x with
  | nil => simp [splitLines]
  | cons c x' ih =>
    have hc : c ≠ '\n' := fun e => h (by rw [e]; exact List.mem_cons_self _ _)
    have h' : '\n' ∉ x' := fun m => h (List.mem_cons_of_mem c m)
    obtain ⟨p, ps, hsp, hS⟩ := splitLines_cons_exists c (x' ++ '\n' :: z) hc
    rw [ih h'] at hsp
    cases hsp
    rw [List.cons_append, hS]

theorem splitLines_joinLines (xs : List Doc) (hne : xs ≠ [])
    (h : ∀ l ∈ xs, '\n' ∉ l) : splitLines (joinLines xs) = xs := by
  induction xs with
  | nil => exact absurd rfl hne
  | cons x xs ih =>
    cases xs with
    | nil => exact splitLines_eq_single x (h x (List.mem_cons_self _ _))
    | cons y ys =>
      rw [joinLines, interAll_cons _ _ _ (by simp), List.append_assoc,
        List.singleton_append]
      rw [splitLines_append_newline x _ (h x (List.mem_cons_self _ _))]
      show x :: splitLines (joinLines (y :: ys)) = x :: y :: ys
      rw [ih (by simp) (fun l hl => h l (List.mem_cons_of_mem x hl))]

theorem listInsertAt_eq {α : Type} (x : α) :
    ∀ (k : Nat) (xs : List α), k ≤ xs.length →
      listInsertAt k x xs = xs.take k ++ x :: xs.drop k := by
  intro k xs
  induction xs generalizing k with
  | nil =>
    intro h
    have : k = 0 := by simpa using h
    subst this
    rfl
  | cons y ys ih =>
    intro h
    cases k with
    | zero => rfl
    | succ k =>
      simp only [listInsertAt, List.take_succ_cons, List.drop_succ_cons,
        List.cons_append, List.cons.injEq, true_and]
      exact ih k (by simpa using h)

end ApplyPatch

open ApplyPatch

/-!
## Claim C1 — replace mode

The claimed behaviour (locate `old`, splice `new`, keep the rest of the file)
does not match `apply_patch_replace`, which discards the target entirely and
returns the patch content. -/

/-- C1 (counterexample): for the document `"foo\nbar\nbaz\n"`, replace mode
returns the patch text itself — here `"qux"` — not the claimed splice
`"foo\nqux\nbaz\n"`; the rest of the file is not left intact. -/
theorem C1_counterexample :
    apply_patch_replace (str "foo\nbar\nbaz\n") (str "qux") = str "qux" ∧
    str "qux" ≠ str "foo\nqux\nbaz\n" := by
  exact ⟨rfl, by decide⟩

/-- C1 (amended): in replace mode the patch content replaces the entire
document — no locating of `old` happens and nothing of the original file is
kept — and `main` marks changed exactly when the patch content differs from
the target content. -/
theorem C1_replace_replaces_whole_file (target patch : Doc) :
    apply_patch_replace target patch = patch ∧
    (replace_mode_changed target patch = true ↔ patch ≠ target) := by
  refine ⟨rfl, ?_⟩
  simp [replace_mode_changed, apply_patch_replace]

/-!
## Claim C5 — untouched-byte invariant, append/prepend

`apply_patch_append` strips trailing whitespace of the original content and
`apply_patch_prepend` strips leading whitespace, so the original is *not*
preserved byte-for-byte. -/

/-- C5 (counterexample): appending `"P"` to the document `"foo\n"` yields
`"foo\n\nP"` — the original's trailing newline is stripped — not the
byte-preserving `"foo\n" + "\n\n" + "P"`. -/
theorem C5_counterexample :
    apply_patch_append (str "foo\n") (str "P") = str "foo\n\nP" ∧
    str "foo\n\nP" ≠ str "foo\n" ++ str "\n\n" ++ str "P" := by
  exact ⟨by decide, by decide⟩

/-- C5 (amended): append and prepend keep the original content intact except
for stripping its trailing (append) resp. leading (prepend) whitespace run
before attaching the block with its `"\n\n"` separator; in particular a
document with no trailing (resp. leading) whitespace is preserved
byte-for-byte. -/
theorem C5_append_prepend_strip_only_whitespace (target patch : Doc) :
    apply_patch_append target patch = pyRstrip target ++ str "\n\n" ++ patch ∧
    apply_patch_prepend target patch = patch ++ str "\n\n" ++ pyLstrip target ∧
    (∃ w, target = pyRstrip target ++ w ∧ ∀ c ∈ w, pyIsSpace c = true) ∧
    (∃ w, target = w ++ pyLstrip target ∧ ∀ c ∈ w, pyIsSpace c = true) ∧
    (pyRstrip target = target →
      apply_patch_append target patch = target ++ str "\n\n" ++ patch) ∧
    (pyLstrip target = target →
      apply_patch_prepend target patch = patch ++ str "\n\n" ++ target) := by
  refine ⟨rfl, rfl, ?_, ?_, ?_, ?_⟩
  · refine ⟨(target.reverse.takeWhile pyIsSpace).reverse, ?_, ?_⟩
    · conv_lhs => rw [← target.reverse_reverse]
      rw [pyRstrip, ← List.reverse_append, List.takeWhile_append_dropWhile]
    · intro c hc
      rw [List.mem_reverse] at hc
      exact List.mem_takeWhile_imp hc
  · refine ⟨target.takeWhile pyIsSpace, ?_, fun c hc => List.mem_takeWhile_imp hc⟩
    rw [pyLstrip, List.takeWhile_append_dropWhile]
  · intro h; rw [apply_patch_append, h]
  · intro h; rw [apply_patch_prepend, h]

/-- C5 (witness for the amended theorem): the document `"foo"` has no
trailing whitespace and append preserves it byte-for-byte. -/
theorem C5_witness :
    apply_patch_append (str "foo") (str "P") = str "foo" ++ str "\n\n" ++ str "P" :=
  (C5_append_prepend_strip_only_whitespace (str "foo") (str "P")).2.2.2.2.1 (by decide)

/-!
## Claim C6 — malformed patches and `MalformedPatch`

The program has no `MalformedPatch` failure at all: the directive extraction
is `re.finditer`, so text with missing paired markers simply produces zero
directives, the apply step reports `changed = False`, and `main` exits `0`
as a no-op. -/

/-- C6 (counterexample): in functions mode, the patch
`"function foo() { return 1;"` is missing its paired closing brace; parsing
does not fail — it extracts zero directives — and the run exits with status
`0` (not non-zero) leaving the target untouched. -/
theorem C6_counterexample :
    parse_function_blocks (str "function foo() \x7b return 1;") = [] ∧
    runTransaction false false (str "doc")
        (apply_function_updates (str "doc")
          (parse_function_blocks (str "function foo() \x7b return 1;"))) true [] =
      { exitCode := 0, target := str "doc", backupFile := none } := by
  exact ⟨by decide, by decide⟩

/-- C6 (amended): a patch whose required paired markers are missing never
raises a parse error — the parser extracts zero directives — and the run is
then a no-op: exit status `0`, the target file untouched (no mutation is
attempted, but also no non-zero exit and no `MalformedPatch` exists in the
program). -/
theorem C6_malformed_patch_is_noop (patch target failedContent : Doc)
    (backup safeMode writeOk : Bool)
    (h : parse_function_blocks patch = []) :
    runTransaction backup safeMode target
        (apply_function_updates target (parse_function_blocks patch))
        writeOk failedContent =
      { exitCode := 0, target := target,
        backupFile := if backup || safeMode then some target else none } := by
  rw [h]
  simp [apply_function_updates, runTransaction]

/-- C6 (witness): the amended theorem applied to the brace-less patch. -/
theorem C6_witness :
    runTransaction true false (str "doc")
        (apply_function_updates (str "doc")
          (parse_function_blocks (str "function foo() \x7b return 1;"))) true [] =
      { exitCode := 0, target := str "doc", backupFile := some (str "doc") } := by
  exact C6_malformed_patch_is_noop (str "function foo() \x7b return 1;") (str "doc") []
    true false true (by decide)

/-!
## Claim C7 — safe-mode rollback on write failure

`write_file` handles its own exception and calls `sys.exit(1)`; `SystemExit`
is not an `Exception`, so `main`'s handler — the only place the safe-mode
restore lives — never runs for a write failure, and no code path removes a
backup file. -/

/-- C7 (counterexample): a failed write after a successful apply under safe
mode exits `1` but leaves whatever the failed write left at the target (here
the truncated empty file, not the original `"orig"`) and the backup file
still on disk — contradicting both the restore and the no-backup-remains
parts of the claim. -/
theorem C7_counterexample :
    runTransaction false true (str "orig") (str "new", true) false [] =
      { exitCode := 1, target := [], backupFile := some (str "orig") } ∧
    ([] : Doc) ≠ str "orig" ∧ some (str "orig") ≠ (none : Option Doc) := by
  exact ⟨by decide, by decide, by decide⟩

/-- C7 (amended): if the write fails after a successful apply under safe
mode, the process exits non-zero, but the backup is *not* restored — the
target holds whatever the failed write left — and the backup file remains on
disk. -/
theorem C7_write_failure_no_rollback (backup : Bool) (target failedContent : Doc)
    (applyRes : Doc × Bool) (h : applyRes.2 = true) :
    runTransaction backup true target applyRes false failedContent =
      { exitCode := 1, target := failedContent, backupFile := some target } := by
  simp [runTransaction, h]

/-- C7 (witness): the amended theorem at a concrete failing write. -/
theorem C7_witness :
    runTransaction false true (str "orig") (str "new", true) false (str "junk") =
      { exitCode := 1, target := str "junk", backupFile := some (str "orig") } := by
  exact C7_write_failure_no_rollback false (str "orig") (str "junk") (str "new", true) rfl

/-!
## Claim C8 — the no-op path

On `changed = False`, `main` prints and calls `sys.exit(0)` (lines 366–368)
without deleting the backup created at lines 343–345; nothing in the program
ever removes a backup. -/

/-- C8 (counterexample): a no-op run under safe mode exits `0` with the
target untouched, but the backup just created remains on disk — it is not
removed as claimed. -/
theorem C8_counterexample :
    runTransaction false true (str "doc") (str "doc", false) true [] =
      { exitCode := 0, target := str "doc", backupFile := some (str "doc") } ∧
    some (str "doc") ≠ (none : Option Doc) := by
  exact ⟨by decide, by decide⟩

/-- C8 (amended): when the apply step reports `changed = false` the program
leaves the target untouched and exits `0` as an informational no-op, but any
backup created at the start of the run remains on disk (it is not removed). -/
theorem C8_noop_keeps_backup (backup safeMode writeOk : Bool)
    (target failedContent : Doc) (applyRes : Doc × Bool)
    (h : applyRes.2 = false) :
    runTransaction backup safeMode target applyRes writeOk failedContent =
      { exitCode := 0, target := target,
        backupFile := if backup || safeMode then some target else none } := by
  simp [runTransaction, h]

/-- C8 (witness): the amended theorem at a concrete no-op run. -/
theorem C8_witness :
    runTransaction true true (str "doc") (str "other", false) true [] =
      { exitCode := 0, target := str "doc", backupFile := some (str "doc") } := by
  exact C8_noop_keeps_backup true true true (str "doc") [] (str "other", false) rfl

/-!
## Claim C9 — smart-mode line insert

Source lines 201–215: split on `"\n"`, range-check
`1 <= line_number <= len(lines) + 1`, `lines.insert(line_number - 1, content)`,
rejoin; out of range only warns. -/

/-- C9 (confirmed): an in-range line-insert directive inserts the content as
a whole new line at 1-based position `ln` (shifting the later lines down by
one) and marks changed; an out-of-range line number leaves the document and
the changed flag untouched. -/
theorem C9_smart_line_insert (doc content : Doc) (changed iw : Bool) (ln : Nat) :
    (1 ≤ ln ∧ ln ≤ (splitLines doc).length + 1 →
      applySmartOne iw (doc, changed) (SmartDirective.insertAtLine ln content) =
        (joinLines
          ((splitLines doc).take (ln - 1) ++ content :: (splitLines doc).drop (ln - 1)),
          true) ∧
      ('\n' ∉ content →
        splitLines
            (applySmartOne iw (doc, changed) (SmartDirective.insertAtLine ln content)).1 =
          (splitLines doc).take (ln - 1) ++ content :: (splitLines doc).drop (ln - 1))) ∧
    (¬(1 ≤ ln ∧ ln ≤ (splitLines doc).length + 1) →
      applySmartOne iw (doc, changed) (SmartDirective.insertAtLine ln content) =
        (doc, changed)) := by
  constructor
  · intro h
    have hk : ln - 1 ≤ (splitLines doc).length := by omega
    have heq : applySmartOne iw (doc, changed) (SmartDirective.insertAtLine ln content) =
        (joinLines
          ((splitLines doc).take (ln - 1) ++ content :: (splitLines doc).drop (ln - 1)),
          true) := by
      simp only [applySmartOne, if_pos h]
      rw [listInsertAt_eq content (ln - 1) _ hk]
    refine ⟨heq, fun hnl => ?_⟩
    rw [heq]
    refine splitLines_joinLines _ (by simp) ?_
    intro l hl
    rcases List.mem_append.mp hl with h' | h'
    · exact splitLines_no_newline doc l (List.mem_of_mem_take h')
    · rcases List.mem_cons.mp h' with h'' | h''
      · rw [h'']; exact hnl
      · exact splitLines_no_newline doc l (List.mem_of_mem_drop h'')
  · intro h
    simp only [applySmartOne, if_neg h]

/-- C9 (witness): the 3-line document `"a\nb\nc"` with `line=2`,
`insert="NEW"` becomes the 4-line document `"a\nNEW\nb\nc"` with `"NEW"` as
the new second line. -/
theorem C9_witness :
    applySmartOne false (str "a\nb\nc", false) (SmartDirective.insertAtLine 2 (str "NEW")) =
      (str "a\nNEW\nb\nc", true) ∧
    splitLines (str "a\nNEW\nb\nc") = [str "a", str "NEW", str "b", str "c"] := by
  have h := (C9_smart_line_insert (str "a\nb\nc") (str "NEW") false false 2).1 (by decide)
  refine ⟨?_, by decide⟩
  rw [h.1]
  decide

/-!
## Claim C10 — functions mode rewrites globally

Source line 244: `result = result.replace(old_func, func_body)` — Python
`str.replace` replaces *every* occurrence.  The lemmas below characterise
`replaceAll` as the old-free pieces of the document interleaved with the new
body, one copy per occurrence. -/

theorem interAll_cons_head (sep : Doc) (c : Char) (p : Doc) (ps : List Doc) :
    interAll sep ((c :: p) :: ps) = c :: interAll sep (p :: ps) := by
  cases ps with
  | nil => rfl
  | cons q qs => simp [interAll]

theorem isPrefixOf_iff_take : ∀ (a b : Doc), a.isPrefixOf b = true ↔ b.take a.length = a
  | [], b => by simp [List.isPrefixOf]
  | x :: xs, [] => by simp [List.isPrefixOf]
  | x :: xs, y :: ys => by
    rw [List.isPrefixOf, Bool.and_eq_true, beq_iff_eq, isPrefixOf_iff_take xs ys,
      List.length_cons, List.take_succ_cons]
    constructor
    · rintro ⟨h1, h2⟩
      rw [h1, h2]
    · intro h
      injection h with h1 h2
      exact ⟨h1.symm, h2⟩

theorem isPrefixOf_of_take_pfx {old : Doc} (n : Nat) {b q : Doc}
    (hq : b.take n = q) (h : old.isPrefixOf q = true) : old.isPrefixOf b = true := by
  rw [isPrefixOf_iff_take] at h ⊢
  subst hq
  rw [List.take_take] at h
  rcases Nat.le_total old.length n with hle | hle
  · rwa [Nat.min_eq_left hle] at h
  · rw [Nat.min_eq_right hle] at h
    have hlen := congrArg List.length h
    rw [List.length_take] at hlen
    have hn : n = old.length := by omega
    rwa [hn] at h

theorem containsSub_nil (old : Doc) (h : old ≠ []) : containsSub old [] = false := by
  simp [containsSub, firstOccIdx, h]

theorem containsSub_cons (old : Doc) (c : Char) (q : Doc)
    (h1 : old.isPrefixOf (c :: q) = false) :
    containsSub old (c :: q) = containsSub old q := by
  simp [containsSub, firstOccIdx, h1]

theorem splitOnSubF_head (old : Doc) : ∀ (fuel : Nat) (s : Doc),
    ∃ p ps, splitOnSubF old fuel s = p :: ps ∧ s.take p.length = p := by
  intro fuel
  induction fuel with
  | zero => exact fun s => ⟨s, [], rfl, List.take_length s⟩
  | succ fuel ih =>
    intro s
    cases s with
    | nil => exact ⟨[], [], rfl, rfl⟩
    | cons c rest =>
      by_cases h : old ≠ [] ∧ old.isPrefixOf (c :: rest)
      · exact ⟨[], splitOnSubF old fuel ((c :: rest).drop old.length),
          by simp only [splitOnSubF, if_pos h], rfl⟩
      · obtain ⟨p, ps, h1, h2⟩ := ih rest
        refine ⟨c :: p, ps, ?_, ?_⟩
        · simp only [splitOnSubF, if_neg h, h1]
        · rw [List.length_cons, List.take_succ_cons, h2]

theorem splitOnSub_head (old s : Doc) :
    ∃ p ps, splitOnSub old s = p :: ps ∧ s.take p.length = p :=
  splitOnSubF_head old s.length s

theorem splitOnSub_ne_nil (old s : Doc) : splitOnSub old s ≠ [] := by
  obtain ⟨p, ps, h, _⟩ := splitOnSub_head old s
  simp [h]

theorem splitOnSub_empty_pat : ∀ (fuel : Nat) (s : Doc), splitOnSubF [] fuel s = [s] := by
  intro fuel
  induction fuel with
  | zero => exact fun s => rfl
  | succ fuel ih =>
    intro s
    cases s with
    | nil => rfl
    | cons c rest =>
      have h : ¬(([] : Doc) ≠ [] ∧ List.isPrefixOf [] (c :: rest)) := by simp
      simp only [splitOnSubF, if_neg h, ih rest]

theorem splitOnSubF_free (old : Doc) (hold : old ≠ []) : ∀ (fuel : Nat) (s : Doc),
    s.length ≤ fuel → ∀ p ∈ splitOnSubF old fuel s, containsSub old p = false := by
  intro fuel
  induction fuel with
  | zero =>
    intro s hs p hp
    have hnil : s = [] := List.length_eq_zero.mp (Nat.le_zero.mp hs)
    subst hnil
    simp only [splitOnSubF, List.mem_singleton] at hp
    rw [hp]
    exact containsSub_nil old hold
  | succ fuel ih =>
    intro s hs p hp
    cases s with
    | nil =>
      simp only [splitOnSubF, List.mem_singleton] at hp
      rw [hp]
      exact containsSub_nil old hold
    | cons c rest =>
      have hrest : rest.length ≤ fuel := by
        simpa using hs
      by_cases h : old ≠ [] ∧ old.isPrefixOf (c :: rest)
      · rw [show splitOnSubF old (fuel + 1) (c :: rest) =
            [] :: splitOnSubF old fuel ((c :: rest).drop old.length) from by
          simp only [splitOnSubF, if_pos h]] at hp
        rcases List.mem_cons.mp hp with h' | h'
        · rw [h']
          exact containsSub_nil old hold
        · refine ih _ ?_ p h'
          have hlen : 0 < old.length := List.length_pos.mpr hold
          simp only [List.length_drop, List.length_cons]
          omega
      · obtain ⟨q, qs, h1, h2⟩ := splitOnSubF_head old fuel rest
        rw [show splitOnSubF old (fuel + 1) (c :: rest) = (c :: q) :: qs from by
          simp only [splitOnSubF, if_neg h, h1]] at hp
        have hfree := ih rest hrest
        have hnp : old.isPrefixOf (c :: rest) = false := by
          rcases not_and_or.mp h with h'' | h''
          · exact absurd hold (by simpa using h'')
          · cases hx : old.isPrefixOf (c :: rest) with
            | false => rfl
            | true => exact absurd hx h''
        rcases List.mem_cons.mp hp with h' | h'
        · rw [h']
          have hq : containsSub old q = false :=
            hfree q (by rw [h1]; exact List.mem_cons_self _ _)
          have hnotpfx : old.isPrefixOf (c :: q) = false := by
            cases hx : old.isPrefixOf (c :: q) with
            | false => rfl
            | true =>
              have hcq : (c :: rest).take (q.length + 1) = c :: q := by
                rw [List.take_succ_cons, h2]
              have hcontra := isPrefixOf_of_take_pfx (q.length + 1) hcq hx
              rw [hnp] at hcontra
              cases hcontra
          rw [containsSub_cons old c q hnotpfx]
          exact hq
        · exact hfree p (by rw [h1]; exact List.mem_cons_of_mem _ h')

theorem splitOnSub_free (old : Doc) (hold : old ≠ []) (s : Doc) :
    ∀ p ∈ splitOnSub old s, containsSub old p = false :=
  splitOnSubF_free old hold s.length s le_rfl

theorem replaceAllF_eq_interAll (old new : Doc) : ∀ (fuel : Nat) (s : Doc),
    s.length ≤ fuel →
    replaceAllF old new fuel s = interAll new (splitOnSubF old fuel s) := by
  intro fuel
  induction fuel with
  | zero =>
    intro s hs
    have hnil : s = [] := List.length_eq_zero.mp (Nat.le_zero.mp hs)
    subst hnil
    rfl
  | succ fuel ih =>
    intro s hs
    cases s with
    | nil => rfl
    | cons c rest =>
      have hrest : rest.length ≤ fuel := by simpa using hs
      by_cases h : old ≠ [] ∧ old.isPrefixOf (c :: rest)
      · have hdrop : ((c :: rest).drop old.length).length ≤ fuel := by
          have hlen : 0 < old.length := List.length_pos.mpr h.1
          simp only [List.length_drop, List.length_cons]
          omega
        obtain ⟨p, ps, h1, _⟩ := splitOnSubF_head old fuel ((c :: rest).drop old.length)
        simp only [replaceAllF, splitOnSubF, if_pos h]
        rw [ih _ hdrop, interAll_cons _ _ _ (by rw [h1]; simp)]
        simp
      · obtain ⟨q, qs, h1, _⟩ := splitOnSubF_head old fuel rest
        simp only [replaceAllF, splitOnSubF, if_neg h, h1]
        rw [ih rest hrest, h1, interAll_cons_head]

theorem replaceAll_eq_interAll (old new s : Doc) :
    replaceAll old new s = interAll new (splitOnSub old s) :=
  replaceAllF_eq_interAll old new s.length s le_rfl

/-- C10 (confirmed): in functions mode, when the search finds an existing
definition `old` of a patch function's name, the rewrite is a global textual
substitution: the document is exactly the `old`-free pieces
`splitOnSub old target` glued back with one copy of the new body per
occurrence — with at least two occurrences (`3 ≤` pieces), *every*
occurrence is replaced, not only the located definition's span. -/
theorem C10_functions_global_substitution (target name body old : Doc)
    (hfind : findFunctionDef name target = some old)
    (hmulti : 3 ≤ (splitOnSub old target).length) :
    apply_function_updates target [(name, body)] =
      (interAll body (splitOnSub old target), true) ∧
    ∀ p ∈ splitOnSub old target, containsSub old p = false := by
  have hold : old ≠ [] := by
    intro he
    rw [he, splitOnSub, splitOnSub_empty_pat] at hmulti
    simp at hmulti
  constructor
  · have hstep : apply_function_updates target [(name, body)] =
        (replaceAll old body target, true) := by
      simp [apply_function_updates, hfind]
    rw [hstep, replaceAll_eq_interAll]
  · exact splitOnSub_free old hold target

/-- C10 (witness): a document with two verbatim copies of
`function foo() { return 1; }`; both are replaced by the new body. -/
theorem C10_witness :
    apply_function_updates
        (str "function foo() { return 1; } function foo() { return 1; }")
        [(str "foo", str "function foo() { return 2; }")] =
      (str "function foo() { return 2; } function foo() { return 2; }", true) := by
  have h := C10_functions_global_substitution
      (str "function foo() { return 1; } function foo() { return 1; }")
      (str "foo") (str "function foo() { return 2; }")
      (str "function foo() { return 1; }") (by decide) (by decide)
  rw [h.1]
  decide

/-!
## Claim C2 — search against the progressively modified document

Smart mode does search the current, partially rewritten document
(`find_section_smart(result, …)` at source lines 149/169/189, and the
line-insert splits `result`).  But `apply_function_updates` searches
`target_content` — the original input — at line 239, while splicing into the
running `result`; the claim's "in particular" for functions mode is false. -/

/-- C2 (counterexample): the document `"function a() { function b() { } }"`
nests `b` inside the (brace-truncated) match for `a`.  The patch updates `a`
then `b`.  The code finds `b` in the *original* document even though the
first rewrite has removed it, so its `result.replace` is a no-op and the new
`b` body is silently dropped; a search against the current document (the
spec's variant) would instead append the new `b`.  The two outputs differ,
so the functions-mode search does not run against the partially rewritten
document. -/
theorem C2_counterexample :
    parse_function_blocks (str "function a() { return 1; }\nfunction b() { return 2; }") =
      [(str "a", str "function a() { return 1; }"),
       (str "b", str "function b() { return 2; }")] ∧
    apply_function_updates (str "function a() { function b() { } }")
        [(str "a", str "function a() { return 1; }"),
         (str "b", str "function b() { return 2; }")] =
      (str "function a() { return 1; } \x7d", true) ∧
    apply_function_updates_specSearch (str "function a() { function b() { } }")
        [(str "a", str "function a() { return 1; }"),
         (str "b", str "function b() { return 2; }")] =
      (str "function a() { return 1; } \x7d\n\nfunction b() { return 2; }", true) ∧
    ((str "function a() { return 1; } \x7d" : Doc) ≠
      str "function a() { return 1; } \x7d\n\nfunction b() { return 2; }") := by
  exact ⟨by decide, by decide, by decide, by decide⟩

/-- C2 (amended): smart-mode directives are applied in sequence against the
progressively modified document — appending one more directive applies it to
the output of all prior ones.  In functions mode the *splice* acts on the
running result, but the *search* for each function's existing definition
consults the original `target_content`, not the current document. -/
theorem C2_smart_progressive_functions_original (iw : Bool) :
    (∀ (target : Doc) (ds : List SmartDirective) (d : SmartDirective),
      apply_patch_smart target (ds ++ [d]) iw =
        applySmartOne iw (apply_patch_smart target ds iw) d) ∧
    (∀ (target : Doc) (fns : List (Doc × Doc)) (n b : Doc),
      apply_function_updates target (fns ++ [(n, b)]) =
        match findFunctionDef n target with
        | some old => (replaceAll old b (apply_function_updates target fns).1, true)
        | none => ((apply_function_updates target fns).1 ++ str "\n\n" ++ b, true)) := by
  constructor
  · intro target ds d
    simp [apply_patch_smart, List.foldl_append]
  · intro target fns n b
    simp [apply_function_updates, List.foldl_append]

/-!
## Span and offset lemmas for the Section Locator (claims C3 and C4) -/

theorem pySlice_reconstruct (s : Doc) (a b : Nat) (hab : a ≤ b) :
    s.take a ++ pySlice s a b ++ s.drop b = s := by
  have h1 : s.take a = (s.take b).take a := by
    rw [List.take_take, Nat.min_eq_left hab]
  rw [pySlice, h1, List.take_append_drop, List.take_append_drop]

theorem pySlice_eq_take_drop (s : Doc) (a m : Nat) :
    pySlice s a (a + m) = (s.drop a).take m := by
  rw [pySlice, List.drop_take]
  congr 1
  omega

theorem firstOccIdx_some (needle : Doc) : ∀ (s : Doc) (i : Nat),
    firstOccIdx needle s = some i →
    i + needle.length ≤ s.length ∧ pySlice s i (i + needle.length) = needle := by
  intro s
  induction s with
  | nil =>
    intro i h
    simp only [firstOccIdx] at h
    by_cases hn : needle = []
    · rw [if_pos hn] at h
      injection h with h'
      subst hn
      simp [pySlice, ← h']
    · rw [if_neg hn] at h
      cases h
  | cons c rest ih =>
    intro i h
    simp only [firstOccIdx] at h
    by_cases hp : needle.isPrefixOf (c :: rest)
    · rw [if_pos hp] at h
      injection h with h'
      subst h'
      have htake := (isPrefixOf_iff_take needle (c :: rest)).mp hp
      constructor
      · have hl := congrArg List.length htake
        rw [List.length_take] at hl
        simp only [Nat.zero_add]
        omega
      · rw [pySlice]
        simp [htake]
    · rw [if_neg hp] at h
      cases hrec : firstOccIdx needle rest with
      | none => rw [hrec] at h; cases h
      | some i' =>
        rw [hrec] at h
        injection h with h'
        obtain ⟨hlen, hslice⟩ := ih i' hrec
        subst h'
        constructor
        · simp only [List.length_cons]
          omega
        · rw [pySlice] at hslice ⊢
          have he : i' + 1 + needle.length = (i' + needle.length) + 1 := by omega
          rw [he, List.take_succ_cons, List.drop_succ_cons]
          exact hslice

theorem firstMatchIdx_some (p : Nat → Bool) : ∀ (n start i : Nat),
    firstMatchIdx p n start = some i → start ≤ i ∧ i < start + n ∧ p i = true := by
  intro n
  induction n with
  | zero => intro start i h; cases h
  | succ n ih =>
    intro start i h
    simp only [firstMatchIdx] at h
    by_cases hp : p start
    · rw [if_pos hp] at h
      injection h with h'
      subst h'
      exact ⟨le_rfl, by omega, hp⟩
    · rw [if_neg hp] at h
      obtain ⟨h1, h2, h3⟩ := ih (start + 1) i h
      exact ⟨by omega, by omega, h3⟩

theorem lineOffset_mono (L : List Doc) {i j : Nat} (hij : i ≤ j) :
    lineOffset L i ≤ lineOffset L j := by
  have hj : j = i + (j - i) := by omega
  rw [hj]
  simp only [lineOffset, List.take_add, List.map_append, List.sum_append]
  exact Nat.le_add_right _ _

theorem lineOffset_succ (L : List Doc) (i : Nat) (x : Doc) (hx : L[i]? = some x) :
    lineOffset L (i + 1) = lineOffset L i + x.length + 1 := by
  simp only [lineOffset, List.take_succ, hx, Option.toList_some, List.map_append,
    List.sum_append, List.map_cons, List.sum_cons, List.map_nil, List.sum_nil]
  omega

theorem sum_line_lengths : ∀ (L : List Doc), L ≠ [] →
    (L.map (fun l => l.length + 1)).sum = (joinLines L).length + 1
  | [], h => absurd rfl h
  | [x], _ => by simp [joinLines, interAll]
  | x :: y :: L', _ => by
    have ih := sum_line_lengths (y :: L') (by simp)
    simp only [List.map_cons, List.sum_cons] at ih ⊢
    rw [joinLines, interAll_cons _ _ _ (by simp)]
    simp only [List.length_append, List.length_singleton]
    rw [show interAll ['\n'] (y :: L') = joinLines (y :: L') from rfl]
    omega

theorem lineOffset_total (L : List Doc) (h : L ≠ []) :
    lineOffset L L.length = (joinLines L).length + 1 := by
  rw [lineOffset, List.take_length]
  exact sum_line_lengths L h

theorem joinLines_drop : ∀ (i : Nat) (L : List Doc), i < L.length →
    (joinLines L).drop (lineOffset L i) = joinLines (L.drop i) := by
  intro i
  induction i with
  | zero => intro L h; simp [lineOffset]
  | succ i ih =>
    intro L h
    cases L with
    | nil => simp at h
    | cons x L' =>
      have hL' : i < L'.length := by simpa using h
      have hne : L' ≠ [] := by
        intro e
        rw [e] at hL'
        simp at hL'
      rw [joinLines, interAll_cons _ _ _ hne]
      have hoff : lineOffset (x :: L') (i + 1) = x.length + (1 + lineOffset L' i) := by
        simp only [lineOffset, List.take_succ_cons, List.map_cons, List.sum_cons]
        omega
      rw [hoff, List.append_assoc, List.singleton_append, List.drop_append,
        show 1 + lineOffset L' i = lineOffset L' i + 1 from by omega, List.drop_succ_cons]
      exact ih L' hL'

theorem joinLines_take_pfx : ∀ (k : Nat) (xs : List Doc), 1 ≤ k → k ≤ xs.length →
    ∃ t, joinLines xs = joinLines (xs.take k) ++ t := by
  intro k
  induction k with
  | zero => intro xs h; exact absurd h (by omega)
  | succ k ih =>
    intro xs _ hk
    cases xs with
    | nil => simp at hk
    | cons x xs' =>
      rcases Nat.eq_zero_or_pos k with h0 | hpos
      · subst h0
        cases xs' with
        | nil => exact ⟨[], by simp⟩
        | cons y ys =>
          refine ⟨'\n' :: joinLines (y :: ys), ?_⟩
          rw [joinLines, interAll_cons _ _ _ (by simp)]
          simp [joinLines, interAll]
      · have hk' : k ≤ xs'.length := by simpa using hk
        have hxs' : xs' ≠ [] := by
          intro e
          rw [e] at hk'
          simp at hk'
          omega
        obtain ⟨t, ht⟩ := ih xs' hpos hk'
        have htk : xs'.take k ≠ [] := by
          intro e
          have hl := congrArg List.length e
          rw [List.length_take] at hl
          simp only [List.length_nil] at hl
          omega
        refine ⟨t, ?_⟩
        rw [joinLines, interAll_cons _ _ _ hxs', List.take_succ_cons, joinLines,
          interAll_cons _ _ _ htk]
        have hx : interAll ['\n'] xs' = joinLines (xs'.take k) ++ t := ht
        rw [hx]
        have hy : interAll ['\n'] (xs'.take k) = joinLines (xs'.take k) := rfl
        rw [hy]
        simp

/-- Invariant of the fuzzy scan's accumulator `(best_ratio, best_match)`
after all window indices `< seen` have been examined: either nothing was
accepted and every seen ratio is at most `0.8`, or the best window `i` is
the first index attaining the maximum seen ratio, which exceeds `0.8`. -/
def FuzzyInv (ratio : Nat → ℚ) (seen : Nat) : ℚ × Option Nat → Prop
  | (b, none) => b = 0 ∧ ∀ j, j < seen → ratio j ≤ mkRat 4 5
  | (b, some i) => i < seen ∧ b = ratio i ∧ mkRat 4 5 < b ∧
      (∀ j, j < i → ratio j < b) ∧ ∀ j, j < seen → ratio j ≤ b

theorem mkRat45_pos : (0 : ℚ) < mkRat 4 5 := by decide

theorem fuzzyLoop_inv (ratio : Nat → ℚ) : ∀ (n start : Nat) (b : ℚ) (m : Option Nat),
    FuzzyInv ratio start (b, m) →
    FuzzyInv ratio (start + n) (fuzzyLoop ratio n start b m) := by
  intro n
  induction n with
  | zero => intro start b m h; exact h
  | succ n ih =>
    intro start b m h
    have hstep : fuzzyLoop ratio (n + 1) start b m =
        if ratio start > b ∧ ratio start > mkRat 4 5
        then fuzzyLoop ratio n (start + 1) (ratio start) (some start)
        else fuzzyLoop ratio n (start + 1) b m := by
      simp only [fuzzyLoop]
    rw [hstep]
    have harith : start + (n + 1) = (start + 1) + n := by omega
    rw [harith]
    by_cases hc : ratio start > b ∧ ratio start > mkRat 4 5
    · rw [if_pos hc]
      refine ih (start + 1) (ratio start) (some start) ?_
      refine ⟨Nat.lt_succ_self _, rfl, hc.2, ?_, ?_⟩
      · intro j hj
        cases m with
        | none => exact lt_of_le_of_lt (h.2 j hj) hc.2
        | some i => exact lt_of_le_of_lt (h.2.2.2.2 j hj) hc.1
      · intro j hj
        rcases Nat.lt_succ_iff_lt_or_eq.mp hj with hj' | hj'
        · cases m with
          | none => exact le_of_lt (lt_of_le_of_lt (h.2 j hj') hc.2)
          | some i => exact le_of_lt (lt_of_le_of_lt (h.2.2.2.2 j hj') hc.1)
        · subst hj'
          exact le_rfl
    · rw [if_neg hc]
      refine ih (start + 1) b m ?_
      cases m with
      | none =>
        obtain ⟨hb0, hall⟩ := h
        refine ⟨hb0, fun j hj => ?_⟩
        rcases Nat.lt_succ_iff_lt_or_eq.mp hj with hj' | hj'
        · exact hall j hj'
        · subst hj'
          by_contra hgt
          push_neg at hgt
          exact hc ⟨by rw [hb0]; exact lt_trans mkRat45_pos hgt, hgt⟩
      | some i =>
        obtain ⟨hi, hb, h45, hfirst, hall⟩ := h
        refine ⟨Nat.lt_succ_of_lt hi, hb, h45, hfirst, fun j hj => ?_⟩
        rcases Nat.lt_succ_iff_lt_or_eq.mp hj with hj' | hj'
        · exact hall j hj'
        · subst hj'
          by_contra hgt
          push_neg at hgt
          exact hc ⟨hgt, lt_trans h45 hgt⟩

theorem tier3_some (D R : Doc) (s e : Nat) (h : tier3 D R = some (s, e)) :
    ∃ i, i < (splitLines D).length - (splitLines R).length + 1 ∧
      mkRat 4 5 < tier3Ratio D R i ∧
      (∀ j, j < i → tier3Ratio D R j < tier3Ratio D R i) ∧
      (∀ j, j < (splitLines D).length - (splitLines R).length + 1 →
        tier3Ratio D R j ≤ tier3Ratio D R i) ∧
      s = lineOffset (splitLines D) i ∧
      e = lineOffset (splitLines D) (i + (splitLines R).length) := by
  have hinv := fuzzyLoop_inv (tier3Ratio D R)
    ((splitLines D).length - (splitLines R).length + 1) 0 0 none
    ⟨rfl, fun j hj => absurd hj (Nat.not_lt_zero j)⟩
  simp only [tier3] at h
  cases hfz : (fuzzyLoop (tier3Ratio D R)
      ((splitLines D).length - (splitLines R).length + 1) 0 0 none).2 with
  | none => rw [hfz] at h; cases h
  | some i =>
    rw [hfz] at h
    simp only [Option.some.injEq, Prod.mk.injEq] at h
    obtain ⟨hs, he⟩ := h
    have hpair : ((fuzzyLoop (tier3Ratio D R)
          ((splitLines D).length - (splitLines R).length + 1) 0 0 none).1, some i) =
        fuzzyLoop (tier3Ratio D R)
          ((splitLines D).length - (splitLines R).length + 1) 0 0 none :=
      Prod.ext rfl hfz.symm
    have hinv2 : FuzzyInv (tier3Ratio D R)
        (0 + ((splitLines D).length - (splitLines R).length + 1))
        ((fuzzyLoop (tier3Ratio D R)
          ((splitLines D).length - (splitLines R).length + 1) 0 0 none).1, some i) := by
      rw [hpair]
      exact hinv
    obtain ⟨hi, hb, h45, hfirst, hall⟩ := hinv2
    refine ⟨i, by omega, by rwa [hb] at h45, ?_, ?_, hs.symm, he.symm⟩
    · intro j hj
      have := hfirst j hj
      rwa [hb] at this
    · intro j hj
      have := hall j (by omega)
      rwa [hb] at this

theorem tier3_none (D R : Doc) (h : tier3 D R = none) :
    ∀ j, j < (splitLines D).length - (splitLines R).length + 1 →
      tier3Ratio D R j ≤ mkRat 4 5 := by
  have hinv := fuzzyLoop_inv (tier3Ratio D R)
    ((splitLines D).length - (splitLines R).length + 1) 0 0 none
    ⟨rfl, fun j hj => absurd hj (Nat.not_lt_zero j)⟩
  simp only [tier3] at h
  cases hfz : (fuzzyLoop (tier3Ratio D R)
      ((splitLines D).length - (splitLines R).length + 1) 0 0 none).2 with
  | none =>
    have hpair : ((fuzzyLoop (tier3Ratio D R)
          ((splitLines D).length - (splitLines R).length + 1) 0 0 none).1,
          (none : Option Nat)) =
        fuzzyLoop (tier3Ratio D R)
          ((splitLines D).length - (splitLines R).length + 1) 0 0 none :=
      Prod.ext rfl hfz.symm
    have hinv2 : FuzzyInv (tier3Ratio D R)
        (0 + ((splitLines D).length - (splitLines R).length + 1))
        ((fuzzyLoop (tier3Ratio D R)
          ((splitLines D).length - (splitLines R).length + 1) 0 0 none).1, none) := by
      rw [hpair]
      exact hinv
    intro j hj
    exact hinv2.2 j (by omega)
  | some i => rw [hfz] at h; cases h

theorem window_facts (D R : Doc) (i : Nat)
    (hik : i + (splitLines R).length ≤ (splitLines D).length) :
    lineOffset (splitLines D) i +
        (windowText (splitLines D) i (splitLines R).length).length ≤ D.length ∧
    pySlice D (lineOffset (splitLines D) i)
        (lineOffset (splitLines D) i +
          (windowText (splitLines D) i (splitLines R).length).length) =
      windowText (splitLines D) i (splitLines R).length := by
  have hk1 : 1 ≤ (splitLines R).length := List.length_pos.mpr (splitLines_ne_nil R)
  have hiL : i < (splitLines D).length := by omega
  have hdrop : D.drop (lineOffset (splitLines D) i) = joinLines ((splitLines D).drop i) := by
    have h := joinLines_drop i (splitLines D) hiL
    rwa [joinLines_splitLines D] at h
  have hkd : (splitLines R).length ≤ ((splitLines D).drop i).length := by
    rw [List.length_drop]
    omega
  obtain ⟨t, ht⟩ := joinLines_take_pfx (splitLines R).length ((splitLines D).drop i) hk1 hkd
  have hw : windowText (splitLines D) i (splitLines R).length =
      joinLines (((splitLines D).drop i).take (splitLines R).length) := rfl
  have hoffle : lineOffset (splitLines D) i ≤ D.length := by
    have hsucc := lineOffset_succ (splitLines D) i ((splitLines D)[i])
      (List.getElem?_eq_getElem hiL)
    have hmono := lineOffset_mono (splitLines D) (show i + 1 ≤ (splitLines D).length from hiL)
    have htot := lineOffset_total (splitLines D) (splitLines_ne_nil D)
    rw [joinLines_splitLines D] at htot
    omega
  have hlen : D.length - lineOffset (splitLines D) i =
      (windowText (splitLines D) i (splitLines R).length).length + t.length := by
    have hl := congrArg List.length hdrop
    rw [List.length_drop, ht, List.length_append, ← hw] at hl
    exact hl
  constructor
  · omega
  · rw [pySlice_eq_take_drop, hdrop, ht, hw]
    exact List.take_left _ _

theorem find_section_smart_false (D R : Doc) :
    find_section_smart D R false = tier1 D R := rfl

theorem find_section_smart_true (D R : Doc) :
    find_section_smart D R true =
      if (splitLines D).length < (splitLines R).length then none
      else
        match tier2 D R with
        | some se => some se
        | none => tier3 D R := rfl

/-!
## Claim C3 — the span invariant of the Section Locator

Tiers 1 and 2 return spans inside the document whose (normalized) text
matches the reference.  The fuzzy tier, however, computes the span end as
the character offset of the line *after* the window
(`sum(len(lines[j]) + 1 for j in range(best_match[1]))`, source line 127),
which is `len(D) + 1` when the window ends at the document's last line; and
a fuzzy match only guarantees ratio `> 0.8`, never normalized equality
(tier 2 having already failed). -/

/-- C3 (counterexample): with ignore-whitespace, locating `"abcdeX"` in the
6-character document `"abcdef"` goes to the fuzzy tier (ratio `5/6 > 0.8`)
and returns the span `(0, 7)` — `end = 7 > 6 = len(D)` violates
`end ≤ length(D)`, and the sliced text is not normalized-equal to the
reference. -/
theorem C3_counterexample :
    find_section_smart (str "abcdef") (str "abcdeX") true = some (0, 7) ∧
    (str "abcdef").length = 6 ∧ ¬(7 ≤ 6) ∧
    normalize_whitespace (pySlice (str "abcdef") 0 7) ≠
      normalize_whitespace (str "abcdeX") := by
  exact ⟨by decide, by decide, by decide, by decide⟩

/-- C3 (amended): every span the locator returns satisfies `start ≤ end` and
`end ≤ length(D) + 1`, and reconstructing the document from the (clamped)
slices yields exactly `D`.  For the exact tier (`ignore_whitespace` unset)
additionally `end ≤ length(D)` and `D[start:end] = R`; when tier 2 produced
the span (ignore-whitespace set and a normalized window matched) additionally
`end ≤ length(D)` and the normalized slice equals the normalized reference.
Only the fuzzy tier can exceed `length(D)` by one, and it guarantees no
normalized equality. -/
theorem C3_span_invariant (D R : Doc) (iw : Bool) (s e : Nat)
    (h : find_section_smart D R iw = some (s, e)) :
    s ≤ e ∧ e ≤ D.length + 1 ∧
    D.take s ++ pySlice D s e ++ D.drop e = D ∧
    (iw = false → e ≤ D.length ∧ pySlice D s e = R) ∧
    (iw = true → tier2 D R ≠ none →
      e ≤ D.length ∧
      normalize_whitespace (pySlice D s e) = normalize_whitespace R) := by
  cases iw with
  | false =>
    rw [find_section_smart_false, tier1] at h
    cases hocc : firstOccIdx R D with
    | none => rw [hocc] at h; cases h
    | some s' =>
      rw [hocc] at h
      simp only [Option.map_some', Option.some.injEq, Prod.mk.injEq] at h
      obtain ⟨hs, he⟩ := h
      subst hs
      subst he
      obtain ⟨hlen, hslice⟩ := firstOccIdx_some R D s' hocc
      refine ⟨Nat.le_add_right _ _, by omega,
        pySlice_reconstruct D s' (s' + R.length) (Nat.le_add_right _ _), ?_, ?_⟩
      · intro _
        exact ⟨by omega, hslice⟩
      · intro hc
        cases hc
  | true =>
    by_cases hguard : (splitLines D).length < (splitLines R).length
    · have hnone : find_section_smart D R true = none := by
        rw [find_section_smart_true, if_pos hguard]
      rw [hnone] at h
      cases h
    · have hk : (splitLines R).length ≤ (splitLines D).length := Nat.le_of_not_lt hguard
      have hk1 : 1 ≤ (splitLines R).length := List.length_pos.mpr (splitLines_ne_nil R)
      cases h2 : tier2 D R with
      | some se =>
        have hfind : find_section_smart D R true = some se := by
          rw [find_section_smart_true, if_neg hguard, h2]
        rw [hfind] at h
        injection h with h'
        subst h'
        simp only [tier2] at h2
        cases hfm : firstMatchIdx
            (fun i => normalize_whitespace
              (windowText (splitLines D) i (splitLines R).length) ==
              normalize_whitespace R)
            ((splitLines D).length - (splitLines R).length + 1) 0 with
        | none => rw [hfm] at h2; cases h2
        | some i =>
          rw [hfm] at h2
          simp only [Option.some.injEq, Prod.mk.injEq] at h2
          obtain ⟨hs, he⟩ := h2
          obtain ⟨_, hi, hp⟩ := firstMatchIdx_some _ _ _ _ hfm
          have hik : i + (splitLines R).length ≤ (splitLines D).length := by omega
          obtain ⟨hbound, hslice⟩ := window_facts D R i hik
          have hnorm : normalize_whitespace
              (windowText (splitLines D) i (splitLines R).length) =
              normalize_whitespace R := eq_of_beq hp
          subst hs
          subst he
          refine ⟨Nat.le_add_right _ _, by omega,
            pySlice_reconstruct _ _ _ (Nat.le_add_right _ _), ?_, ?_⟩
          · intro hc
            cases hc
          · intro _ _
            exact ⟨hbound, by rw [hslice]; exact hnorm⟩
      | none =>
        have hfind : find_section_smart D R true = tier3 D R := by
          rw [find_section_smart_true, if_neg hguard, h2]
        rw [hfind] at h
        obtain ⟨i, hi, _, _, _, hs, he⟩ := tier3_some D R s e h
        subst hs
        subst he
        have hik : i + (splitLines R).length ≤ (splitLines D).length := by omega
        have htot := lineOffset_total (splitLines D) (splitLines_ne_nil D)
        rw [joinLines_splitLines D] at htot
        have hmono1 : lineOffset (splitLines D) i ≤
            lineOffset (splitLines D) (i + (splitLines R).length) :=
          lineOffset_mono _ (Nat.le_add_right _ _)
        have hmono2 : lineOffset (splitLines D) (i + (splitLines R).length) ≤
            lineOffset (splitLines D) (splitLines D).length :=
          lineOffset_mono _ hik
        refine ⟨hmono1, by omega, pySlice_reconstruct _ _ _ hmono1, ?_, ?_⟩
        · intro hc
          cases hc
        · intro _ hc
          exact absurd rfl hc

/-- C3 (witness): locating `"    b"` in `"a\n\tb\nc"` with ignore-whitespace
matches via the whitespace-normalized tier at span `(2, 4)`; reconstruction
yields the document and the normalized slice equals the normalized
reference. -/
theorem C3_witness :
    (str "a\n\tb\nc").take 2 ++ pySlice (str "a\n\tb\nc") 2 4 ++
        (str "a\n\tb\nc").drop 4 = str "a\n\tb\nc" ∧
    normalize_whitespace (pySlice (str "a\n\tb\nc") 2 4) =
      normalize_whitespace (str "    b") := by
  have h := C3_span_invariant (str "a\n\tb\nc") (str "    b") true 2 4 (by decide)
  exact ⟨h.2.2.1, (h.2.2.2.2 rfl (by decide)).2⟩

/-!
## Claim C4 — the fuzzy tier's threshold and selection rule

Source lines 113–123: `if ratio > best_ratio and ratio > 0.8`, with
`best_ratio` starting at `0` and `best_match` at `None`: strictly-above-0.8
acceptance, highest ratio wins, first window wins ties. -/

/-- C4 (confirmed): when the fuzzy tier is reached (ignore-whitespace set,
reference fits, no normalized window equals the normalized reference), a
span is returned exactly for the first window attaining the maximum
similarity ratio, and only if that ratio is strictly greater than `0.8`
(= `4/5`, exact); the locator reports no match iff every window's ratio is
at most `0.8` — a window at exactly `0.8` is rejected. -/
theorem C4_fuzzy_threshold (D R : Doc)
    (hk : (splitLines R).length ≤ (splitLines D).length)
    (h2 : tier2 D R = none) :
    (∀ s e, find_section_smart D R true = some (s, e) →
      ∃ i, i < (splitLines D).length - (splitLines R).length + 1 ∧
        mkRat 4 5 < tier3Ratio D R i ∧
        (∀ j, j < i → tier3Ratio D R j < tier3Ratio D R i) ∧
        (∀ j, j < (splitLines D).length - (splitLines R).length + 1 →
          tier3Ratio D R j ≤ tier3Ratio D R i) ∧
        s = lineOffset (splitLines D) i ∧
        e = lineOffset (splitLines D) (i + (splitLines R).length)) ∧
    (find_section_smart D R true = none ↔
      ∀ j, j < (splitLines D).length - (splitLines R).length + 1 →
        tier3Ratio D R j ≤ mkRat 4 5) := by
  have hguard : ¬((splitLines D).length < (splitLines R).length) := by omega
  have hfind : find_section_smart D R true = tier3 D R := by
    rw [find_section_smart_true, if_neg hguard, h2]
  constructor
  · intro s e h
    rw [hfind] at h
    exact tier3_some D R s e h
  · rw [hfind]
    constructor
    · exact tier3_none D R
    · intro hall
      cases h3 : tier3 D R with
      | none => rfl
      | some se =>
        obtain ⟨i, hi, hgt, _, _, _, _⟩ := tier3_some D R se.1 se.2 (by rw [h3])
        exact absurd (hall i hi) (not_le.mpr hgt)

/-- C4 (witness): the boundary case — document `"ab"`, reference `"axb"`.
The single window's ratio is exactly `0.8 = 4/5`, so the amended theorem's
iff yields no match: a ratio exactly at the threshold is rejected. -/
theorem C4_witness :
    find_section_smart (str "ab") (str "axb") true = none ∧
    tier3Ratio (str "ab") (str "axb") 0 = mkRat 4 5 := by
  have h := C4_fuzzy_threshold (str "ab") (str "axb") (by decide) (by decide)
  exact ⟨h.2.mpr (by decide), by decide⟩
